/-
Verification of the platform-assignment core of the train-scheduler component.

The definitions below are a shallow embedding of `src/components/train-scheduler.tsx`:
  * `Train`, `AssignedTrain`, `Platform`, `ScoringWeights` mirror the TypeScript types;
  * `assignPlatformsScoreBased` mirrors the greedy score-based assignment function
    (lines 117-163 of the source), decomposed into its sequential steps:
    `withEffective` (the map adding effective times), the stable sort by
    `effectiveArrival` (JavaScript `Array.prototype.sort` is stable, embedded with
    `List.mergeSort`), the inner best-platform scan (`bestLoop`/`findBest`) and the
    placement step (`placeTrain`);
  * `platformMetrics`, `delayComparisonData`, `schedulingMetricsData` mirror the
    metrics aggregation code (the `platformMetrics` memo and the two per-train
    delay reports).
JavaScript numbers are embedded as rationals; display-only formatting
(`toFixed`, time labels) is presentation and not modelled.
-/
import Mathlib

namespace TrainScheduler

/-- Status of a train: the source's `"on-time" | "delayed"` union type. -/
inductive TrainStatus where
  | onTime
  | delayed
deriving DecidableEq, Repr

/-- The `Train` type of the source: scheduled times (minutes from 08:00), delay, status. -/
structure Train where
  id : String
  name : String
  arrival : ℚ
  departure : ℚ
  delay : ℚ
  status : TrainStatus
deriving DecidableEq, Repr

/-- `AssignedTrain = Train & {effectiveArrival, effectiveDeparture}` of the source. -/
structure AssignedTrain extends Train where
  effectiveArrival : ℚ
  effectiveDeparture : ℚ
deriving DecidableEq, Repr

/-- The `Platform` type of the source. -/
structure Platform where
  id : Nat
  trains : List AssignedTrain
  nextFreeAt : ℚ
deriving DecidableEq, Repr

/-- The `ScoringWeights` type of the source. -/
structure ScoringWeights where
  idleGap : ℚ
  load : ℚ
  delayedSpread : ℚ
deriving DecidableEq, Repr

/-- `DEFAULT_WEIGHTS` of the source: `{idleGap: 1.0, load: 0.3, delayedSpread: 0.5}`. -/
def DEFAULT_WEIGHTS : ScoringWeights :=
  { idleGap := 1, load := 3 / 10, delayedSpread := 1 / 2 }

/-- The `withEffective` map at the top of `assignPlatformsScoreBased`:
`trains.map(t => ({...t, effectiveArrival: t.arrival + t.delay, effectiveDeparture: t.departure + t.delay}))`. -/
def withEffective (trains : List Train) : List AssignedTrain :=
  trains.map (fun t =>
    { toTrain := t
      effectiveArrival := t.arrival + t.delay
      effectiveDeparture := t.departure + t.delay })

/-- The sort comparator `(a, b) => a.effectiveArrival - b.effectiveArrival`, i.e. an
ascending order on `effectiveArrival`, as the Boolean `≤` the stable sort is keyed on. -/
def effLE (a b : AssignedTrain) : Bool :=
  decide (a.effectiveArrival ≤ b.effectiveArrival)

/-- `withEffective.sort(...)`: JavaScript's sort is stable, so the embedding uses the
stable `List.mergeSort` keyed on `effectiveArrival`. -/
def sortedEffective (trains : List Train) : List AssignedTrain :=
  (withEffective trains).mergeSort effLE

/-- The `reduce` computing `delayedCount` inside the scoring loop:
`pl.trains.reduce((acc, t) => acc + (t.status === "delayed" ? 1 : 0), 0)`. -/
def delayedCount (ts : List AssignedTrain) : Nat :=
  ts.foldl (fun acc t => acc + (if t.toTrain.status = TrainStatus.delayed then 1 else 0)) 0

/-- The score of a feasible platform for a train (source lines 136-140). -/
def score (weights : ScoringWeights) (pl : Platform) (train : AssignedTrain) : ℚ :=
  let gap := max 0 (train.effectiveArrival - pl.nextFreeAt)
  let load := (pl.trains.length : ℚ)
  let delayed := (delayedCount pl.trains : ℚ)
  weights.idleGap * gap + weights.load * load + weights.delayedSpread * delayed

/-- The inner `for (let i = 0; ...)` loop of `assignPlatformsScoreBased`: scan the
platforms carrying the current index and the best `(bestIdx, bestScore)` so far
(`none` stands for the initial `bestIdx = -1 / bestScore = +∞`); a feasible platform
(`pl.nextFreeAt <= train.effectiveArrival`) replaces the best only on strict `<`. -/
def bestLoop (weights : ScoringWeights) (train : AssignedTrain) :
    Nat → Option (Nat × ℚ) → List Platform → Option (Nat × ℚ)
  | _, best, [] => best
  | i, best, pl :: rest =>
    if pl.nextFreeAt ≤ train.effectiveArrival then
      match best with
      | none => bestLoop weights train (i + 1) (some (i, score weights pl train)) rest
      | some (bi, bs) =>
        if score weights pl train < bs then
          bestLoop weights train (i + 1) (some (i, score weights pl train)) rest
        else
          bestLoop weights train (i + 1) (some (bi, bs)) rest
    else
      bestLoop weights train (i + 1) best rest

/-- The result of the scan loop for one train over the whole platform list. -/
def findBest (weights : ScoringWeights) (train : AssignedTrain) (platforms : List Platform) :
    Option (Nat × ℚ) :=
  bestLoop weights train 0 none platforms

/-- Source lines 151-152: `pl.trains.push(train); pl.nextFreeAt = train.effectiveDeparture`. -/
def pushTrain (train : AssignedTrain) (pl : Platform) : Platform :=
  { pl with trains := pl.trains ++ [train], nextFreeAt := train.effectiveDeparture }

/-- In-place update `platforms[bestIdx]` of the source, as a functional list update. -/
def updatePlatform (train : AssignedTrain) : List Platform → Nat → List Platform
  | [], _ => []
  | pl :: rest, 0 => pushTrain train pl :: rest
  | pl :: rest, i + 1 => pl :: updatePlatform train rest i

/-- One iteration of the outer `for (const train of withEffective)` loop: place the
train on the best feasible platform, or open a new platform with
`id = platforms.length + 1` (source lines 149-159). -/
def placeTrain (weights : ScoringWeights) (platforms : List Platform) (train : AssignedTrain) :
    List Platform :=
  match findBest weights train platforms with
  | some (bestIdx, _) => updatePlatform train platforms bestIdx
  | none =>
    platforms ++
      [{ id := platforms.length + 1, trains := [train], nextFreeAt := train.effectiveDeparture }]

/-- `assignPlatformsScoreBased` (source lines 117-163). -/
def assignPlatformsScoreBased (trains : List Train)
    (weights : ScoringWeights := DEFAULT_WEIGHTS) : List Platform :=
  (sortedEffective trains).foldl (placeTrain weights) []

/-- The per-platform record stored by the `platformMetrics` memo. -/
structure PlatformMetrics where
  endMetric : ℚ
  totalDelay : ℚ
  delayedCount : Nat
  totalTrains : Nat
deriving DecidableEq, Repr

/-- The body of the `platformMetrics` memo for one platform (source lines 196-201). -/
def platformMetrics (pl : Platform) : PlatformMetrics :=
  let totalTrains := pl.trains.length
  let totalDelay : ℚ := pl.trains.foldl (fun sum t => sum + t.toTrain.delay) 0
  let delayed := (pl.trains.filter (fun t => t.toTrain.status = TrainStatus.delayed)).length
  let endMetric : ℚ :=
    if totalTrains > 0 then (totalDelay + (delayed : ℚ)) / (totalTrains : ℚ) else 0
  { endMetric := endMetric, totalDelay := totalDelay, delayedCount := delayed,
    totalTrains := totalTrains }

/-- A row of the `delayComparisonData` memo (chart data for the reach-table view). -/
structure DelayComparisonRow where
  train : String
  fullName : String
  prevDelay : ℚ
  newDelay : ℚ
deriving DecidableEq, Repr

/-- The `delayComparisonData` memo (source lines 206-222): per train,
`newDelay = |endMetric - prevDelay|` (the 2-decimal display rounding is presentation
and not modelled). -/
def delayComparisonData (platforms : List Platform) : List DelayComparisonRow :=
  platforms.flatMap (fun pl =>
    let endMetric := (platformMetrics pl).endMetric
    pl.trains.map (fun t =>
      { train := t.toTrain.id, fullName := t.toTrain.name, prevDelay := t.toTrain.delay,
        newDelay := |endMetric - t.toTrain.delay| }))

/-- A row of the Scheduling Metrics table. -/
structure SchedulingMetricsRow where
  train : String
  platformId : Nat
  prevDelay : ℚ
  endTime : ℚ
  newDelay : ℚ
deriving DecidableEq, Repr

/-- The rows rendered by the Scheduling Metrics table (source lines 412-433):
per train, `newDelay = Math.max(0, prevDelay - endMetric)`. -/
def schedulingMetricsData (platforms : List Platform) : List SchedulingMetricsRow :=
  platforms.flatMap (fun pl =>
    let endMetric := (platformMetrics pl).endMetric
    pl.trains.map (fun t =>
      { train := t.toTrain.name, platformId := pl.id, prevDelay := t.toTrain.delay,
        endTime := endMetric, newDelay := max 0 (t.toTrain.delay - endMetric) }))

/-- Spec-side definition (spec §4.4): `totalDelayMinutes = sum(delayMinutes over vehicles)`. -/
def specTotalDelayMinutes (pl : Platform) : ℚ :=
  (pl.trains.map (fun t => t.toTrain.delay)).sum

/-- Spec-side definition (spec §4.4): `delayedCount = count(status == Delayed)`. -/
def specDelayedCount (pl : Platform) : Nat :=
  pl.trains.countP (fun t => t.toTrain.status = TrainStatus.delayed)

/-- No platform in `past` is feasible for `train`
(`pl.nextFreeAt <= train.effectiveArrival` is the source's feasibility test). -/
def NoneFeasible (train : AssignedTrain) (past : List Platform) : Prop :=
  ∀ pl ∈ past, ¬ pl.nextFreeAt ≤ train.effectiveArrival

/-- `bi` is the first index in `past` attaining the minimal score `bs` among the
feasible platforms: `bi` is feasible with score `bs`, `bs` is a lower bound on all
feasible scores, and every feasible platform before `bi` scores strictly above `bs`. -/
def BestAt (weights : ScoringWeights) (train : AssignedTrain) (past : List Platform)
    (bi : Nat) (bs : ℚ) : Prop :=
  (∃ pl : Platform, past[bi]? = some pl ∧ pl.nextFreeAt ≤ train.effectiveArrival ∧
    bs = score weights pl train) ∧
  (∀ (j : Nat) (pl : Platform), past[j]? = some pl → pl.nextFreeAt ≤ train.effectiveArrival →
    bs ≤ score weights pl train) ∧
  (∀ (j : Nat) (pl : Platform), j < bi → past[j]? = some pl → pl.nextFreeAt ≤ train.effectiveArrival →
    bs < score weights pl train)

/-- Invariant of the scan accumulator after the loop has processed the platforms `past`. -/
def AccOk (weights : ScoringWeights) (train : AssignedTrain) (past : List Platform)
    (acc : Option (Nat × ℚ)) : Prop :=
  match acc with
  | none => NoneFeasible train past
  | some (bi, bs) => BestAt weights train past bi bs

/-- The per-platform invariant: `nextFreeAt` is the effective departure of the last
assigned train, and consecutively assigned trains do not overlap. -/
def PlatformInv (pl : Platform) : Prop :=
  pl.trains.getLast?.map AssignedTrain.effectiveDeparture = some pl.nextFreeAt ∧
  pl.trains.Chain' (fun a b => a.effectiveDeparture ≤ b.effectiveArrival)

/-- The whole-state invariant: every platform satisfies `PlatformInv` and the ids
are `1, 2, ...` in list order. -/
def StateInv (ps : List Platform) : Prop :=
  (∀ pl ∈ ps, PlatformInv pl) ∧ ps.map Platform.id = List.range' 1 ps.length

/-- Example vehicle A of the spec's worked example (§8). -/
def trainA : Train :=
  { id := "A", name := "A", arrival := 0, departure := 20, delay := 0,
    status := TrainStatus.onTime }

/-- Example vehicle B of the spec's worked example (§8). -/
def trainB : Train :=
  { id := "B", name := "B", arrival := 10, departure := 30, delay := 0,
    status := TrainStatus.onTime }

/-- Example vehicle C of the spec's worked example (§8). -/
def trainC : Train :=
  { id := "C", name := "C", arrival := 25, departure := 40, delay := 0,
    status := TrainStatus.onTime }

def exampleTrains : List Train := [trainA, trainB, trainC]

def assignedA : AssignedTrain :=
  { toTrain := trainA, effectiveArrival := 0, effectiveDeparture := 20 }

def assignedB : AssignedTrain :=
  { toTrain := trainB, effectiveArrival := 10, effectiveDeparture := 30 }

def assignedC : AssignedTrain :=
  { toTrain := trainC, effectiveArrival := 25, effectiveDeparture := 40 }

def examplePlatform1 : Platform :=
  { id := 1, trains := [assignedA, assignedC], nextFreeAt := 40 }

def examplePlatform2 : Platform :=
  { id := 2, trains := [assignedB], nextFreeAt := 30 }

/-- A train and two identical empty platforms whose scores tie, to exhibit the
first-minimum tie-break. -/
def tieTrain : AssignedTrain :=
  { toTrain := trainA, effectiveArrival := 10, effectiveDeparture := 30 }

def tiePlatformA : Platform := { id := 1, trains := [], nextFreeAt := 0 }

def tiePlatformB : Platform := { id := 2, trains := [], nextFreeAt := 0 }

/-- Two vehicles with equal effective arrival (5), in input order D then E. -/
def trainD : Train :=
  { id := "D", name := "D", arrival := 5, departure := 20, delay := 0,
    status := TrainStatus.onTime }

def trainE : Train :=
  { id := "E", name := "E", arrival := 0, departure := 25, delay := 5,
    status := TrainStatus.delayed }

def assignedD : AssignedTrain :=
  { toTrain := trainD, effectiveArrival := 5, effectiveDeparture := 20 }

def assignedE : AssignedTrain :=
  { toTrain := trainE, effectiveArrival := 5, effectiveDeparture := 30 }

/-- A train with a negative delay, exercising the malformed-input case of C6. -/
def trainNeg : Train :=
  { id := "N", name := "N", arrival := 10, departure := 20, delay := -3,
    status := TrainStatus.onTime }

def assignedNeg : AssignedTrain :=
  { toTrain := trainNeg, effectiveArrival := 7, effectiveDeparture := 17 }

/-- A delayed train (delay 10) for the metrics examples. -/
def trainX : Train :=
  { id := "X", name := "X", arrival := 0, departure := 10, delay := 10,
    status := TrainStatus.delayed }

/-- An on-time train for the metrics examples. -/
def trainY : Train :=
  { id := "Y", name := "Y", arrival := 30, departure := 40, delay := 0,
    status := TrainStatus.onTime }

def delayedTrainX : AssignedTrain :=
  { toTrain := trainX, effectiveArrival := 10, effectiveDeparture := 20 }

def onTimeTrainY : AssignedTrain :=
  { toTrain := trainY, effectiveArrival := 30, effectiveDeparture := 40 }

def metricsPlatform : Platform :=
  { id := 1, trains := [delayedTrainX, onTimeTrainY], nextFreeAt := 40 }

lemma getElem?_concat_cases {α : Type} {l : List α} {a b : α} {j : Nat}
    (h : (l ++ [a])[j]? = some b) : l[j]? = some b ∨ (j = l.length ∧ b = a) := by
  rcases Nat.lt_trichotomy j l.length with hj | hj | hj
  · left
    rwa [List.getElem?_append, if_pos hj] at h
  · right
    subst hj
    rw [List.getElem?_concat_length] at h
    exact ⟨rfl, (Option.some_inj.mp h).symm⟩
  · exfalso
    rw [List.getElem?_eq_none (by simpa using hj)] at h
    exact Option.noConfusion h

lemma getElem?_concat_of_lt {α : Type} {l : List α} {a : α} {j : Nat} (hj : j < l.length) :
    (l ++ [a])[j]? = l[j]? := by
  rw [List.getElem?_append, if_pos hj]

lemma noneFeasible_skip {train : AssignedTrain} {past : List Platform} {pl : Platform}
    (hf : ¬ pl.nextFreeAt ≤ train.effectiveArrival) (h : NoneFeasible train past) :
    NoneFeasible train (past ++ [pl]) := by
  intro pl' hmem
  rcases List.mem_append.mp hmem with h' | h'
  · exact h pl' h'
  · rwa [List.mem_singleton.mp h']

lemma bestAt_skip {weights : ScoringWeights} {train : AssignedTrain} {past : List Platform}
    {pl : Platform} {bi : Nat} {bs : ℚ}
    (hf : ¬ pl.nextFreeAt ≤ train.effectiveArrival)
    (h : BestAt weights train past bi bs) :
    BestAt weights train (past ++ [pl]) bi bs := by
  obtain ⟨⟨plb, hplb, hfb, hsb⟩, hmin, hfirst⟩ := h
  have hbi : bi < past.length := (List.getElem?_eq_some.mp hplb).1
  refine ⟨⟨plb, by rw [getElem?_concat_of_lt hbi]; exact hplb, hfb, hsb⟩, ?_, ?_⟩
  · intro j pl' hj hfj
    rcases getElem?_concat_cases hj with h' | ⟨_, h'⟩
    · exact hmin j pl' h' hfj
    · exact absurd (h' ▸ hfj) hf
  · intro j pl' hjbi hj hfj
    rcases getElem?_concat_cases hj with h' | ⟨_, h'⟩
    · exact hfirst j pl' hjbi h' hfj
    · exact absurd (h' ▸ hfj) hf

lemma bestAt_found_none {weights : ScoringWeights} {train : AssignedTrain}
    {past : List Platform} {pl : Platform}
    (hf : pl.nextFreeAt ≤ train.effectiveArrival) (h : NoneFeasible train past) :
    BestAt weights train (past ++ [pl]) past.length (score weights pl train) := by
  refine ⟨⟨pl, List.getElem?_concat_length past pl, hf, rfl⟩, ?_, ?_⟩
  · intro j pl' hj hfj
    rcases getElem?_concat_cases hj with h' | ⟨_, h'⟩
    · exact absurd hfj (h pl' (List.getElem?_mem h'))
    · exact le_of_eq (by rw [h'])
  · intro j pl' hjbi hj hfj
    rcases getElem?_concat_cases hj with h' | ⟨hj', _⟩
    · exact absurd hfj (h pl' (List.getElem?_mem h'))
    · exact absurd hj' (Nat.ne_of_lt hjbi)

lemma bestAt_improve {weights : ScoringWeights} {train : AssignedTrain}
    {past : List Platform} {pl : Platform} {bi : Nat} {bs : ℚ}
    (hf : pl.nextFreeAt ≤ train.effectiveArrival)
    (hlt : score weights pl train < bs)
    (h : BestAt weights train past bi bs) :
    BestAt weights train (past ++ [pl]) past.length (score weights pl train) := by
  obtain ⟨⟨plb, hplb, hfb, hsb⟩, hmin, hfirst⟩ := h
  refine ⟨⟨pl, List.getElem?_concat_length past pl, hf, rfl⟩, ?_, ?_⟩
  · intro j pl' hj hfj
    rcases getElem?_concat_cases hj with h' | ⟨_, h'⟩
    · exact le_of_lt (lt_of_lt_of_le hlt (hmin j pl' h' hfj))
    · exact le_of_eq (by rw [h'])
  · intro j pl' hjbi hj hfj
    rcases getElem?_concat_cases hj with h' | ⟨hj', _⟩
    · exact lt_of_lt_of_le hlt (hmin j pl' h' hfj)
    · exact absurd hj' (Nat.ne_of_lt hjbi)

lemma bestAt_keep {weights : ScoringWeights} {train : AssignedTrain}
    {past : List Platform} {pl : Platform} {bi : Nat} {bs : ℚ}
    (hf : pl.nextFreeAt ≤ train.effectiveArrival)
    (hge : ¬ score weights pl train < bs)
    (h : BestAt weights train past bi bs) :
    BestAt weights train (past ++ [pl]) bi bs := by
  obtain ⟨⟨plb, hplb, hfb, hsb⟩, hmin, hfirst⟩ := h
  have hbi : bi < past.length := (List.getElem?_eq_some.mp hplb).1
  refine ⟨⟨plb, by rw [getElem?_concat_of_lt hbi]; exact hplb, hfb, hsb⟩, ?_, ?_⟩
  · intro j pl' hj hfj
    rcases getElem?_concat_cases hj with h' | ⟨_, h'⟩
    · exact hmin j pl' h' hfj
    · exact h' ▸ le_of_not_lt hge
  · intro j pl' hjbi hj hfj
    rcases getElem?_concat_cases hj with h' | ⟨hj', _⟩
    · exact hfirst j pl' hjbi h' hfj
    · exact absurd hj' (Nat.ne_of_lt (lt_trans hjbi hbi))

lemma bestLoop_ok (weights : ScoringWeights) (train : AssignedTrain) :
    ∀ (rest past : List Platform) (acc : Option (Nat × ℚ)),
      AccOk weights train past acc →
      AccOk weights train (past ++ rest) (bestLoop weights train past.length acc rest)
  | [], past, acc, h => by simpa [bestLoop] using h
  | pl :: rest, past, acc, h => by
    by_cases hf : pl.nextFreeAt ≤ train.effectiveArrival
    · match acc, h with
      | none, h =>
        have h' : AccOk weights train (past ++ [pl])
            (some (past.length, score weights pl train)) :=
          bestAt_found_none hf h
        have ih := bestLoop_ok weights train rest (past ++ [pl]) _ h'
        simp only [List.length_append, List.length_cons, List.length_nil,
          List.append_assoc, List.singleton_append] at ih
        simpa [bestLoop, hf] using ih
      | some (bi, bs), h =>
        by_cases hlt : score weights pl train < bs
        · have h' : AccOk weights train (past ++ [pl])
              (some (past.length, score weights pl train)) :=
            bestAt_improve hf hlt h
          have ih := bestLoop_ok weights train rest (past ++ [pl]) _ h'
          simp only [List.length_append, List.length_cons, List.length_nil,
            List.append_assoc, List.singleton_append] at ih
          simpa [bestLoop, hf, hlt] using ih
        · have h' : AccOk weights train (past ++ [pl]) (some (bi, bs)) :=
            bestAt_keep hf hlt h
          have ih := bestLoop_ok weights train rest (past ++ [pl]) _ h'
          simp only [List.length_append, List.length_cons, List.length_nil,
            List.append_assoc, List.singleton_append] at ih
          simpa [bestLoop, hf, hlt] using ih
    · have h' : AccOk weights train (past ++ [pl]) acc := by
        match acc, h with
        | none, h => exact noneFeasible_skip hf h
        | some (bi, bs), h => exact bestAt_skip hf h
      have ih := bestLoop_ok weights train rest (past ++ [pl]) _ h'
      simp only [List.length_append, List.length_cons, List.length_nil,
        List.append_assoc, List.singleton_append] at ih
      simpa [bestLoop, hf] using ih

lemma findBest_ok (weights : ScoringWeights) (train : AssignedTrain)
    (platforms : List Platform) :
    AccOk weights train platforms (findBest weights train platforms) := by
  have h0 : AccOk weights train [] none := fun pl h => absurd h (List.not_mem_nil pl)
  have := bestLoop_ok weights train platforms [] none h0
  simpa [findBest] using this

lemma findBest_some {weights : ScoringWeights} {train : AssignedTrain}
    {platforms : List Platform} {i : Nat} {s : ℚ}
    (h : findBest weights train platforms = some (i, s)) :
    BestAt weights train platforms i s := by
  have := findBest_ok weights train platforms
  rw [h] at this
  exact this

lemma findBest_none {weights : ScoringWeights} {train : AssignedTrain}
    {platforms : List Platform}
    (h : findBest weights train platforms = none) :
    NoneFeasible train platforms := by
  have := findBest_ok weights train platforms
  rw [h] at this
  exact this

lemma updatePlatform_map_id (train : AssignedTrain) :
    ∀ (ps : List Platform) (i : Nat),
      (updatePlatform train ps i).map Platform.id = ps.map Platform.id
  | [], _ => rfl
  | pl :: rest, 0 => rfl
  | pl :: rest, i + 1 => by
    simp only [updatePlatform, List.map_cons, updatePlatform_map_id train rest i]

lemma updatePlatform_length (train : AssignedTrain) (ps : List Platform) (i : Nat) :
    (updatePlatform train ps i).length = ps.length := by
  have := congrArg List.length (updatePlatform_map_id train ps i)
  simpa using this

lemma mem_updatePlatform {train : AssignedTrain} :
    ∀ {ps : List Platform} {i : Nat} {pl' : Platform},
      pl' ∈ updatePlatform train ps i →
      pl' ∈ ps ∨ ∃ pl : Platform, ps[i]? = some pl ∧ pl' = pushTrain train pl
  | [], i, pl', h => absurd h (List.not_mem_nil pl')
  | pl :: rest, 0, pl', h => by
    rcases List.mem_cons.mp h with h' | h'
    · exact Or.inr ⟨pl, by simp, h'⟩
    · exact Or.inl (List.mem_cons_of_mem pl h')
  | pl :: rest, i + 1, pl', h => by
    rcases List.mem_cons.mp h with h' | h'
    · exact Or.inl (h' ▸ List.mem_cons_self pl rest)
    · rcases mem_updatePlatform h' with h'' | ⟨plx, hget, heq⟩
      · exact Or.inl (List.mem_cons_of_mem pl h'')
      · exact Or.inr ⟨plx, by simpa using hget, heq⟩

lemma updatePlatform_flatten_perm (train : AssignedTrain) :
    ∀ (ps : List Platform) (i : Nat), i < ps.length →
      ((updatePlatform train ps i).flatMap Platform.trains).Perm
        (ps.flatMap Platform.trains ++ [train])
  | [], i, h => absurd h (Nat.not_lt_zero i)
  | pl :: rest, 0, _ => by
    simp only [updatePlatform, List.flatMap_cons, pushTrain]
    have h1 : ([train] ++ rest.flatMap Platform.trains).Perm
        (rest.flatMap Platform.trains ++ [train]) := List.perm_append_comm
    simpa [List.append_assoc] using List.Perm.append_left pl.trains h1
  | pl :: rest, i + 1, h => by
    simp only [updatePlatform, List.flatMap_cons]
    have ih := updatePlatform_flatten_perm train rest i (by simpa using h)
    simpa [List.append_assoc] using List.Perm.append_left pl.trains ih

lemma placeTrain_flatten_perm (weights : ScoringWeights) (ps : List Platform)
    (train : AssignedTrain) :
    ((placeTrain weights ps train).flatMap Platform.trains).Perm
      (ps.flatMap Platform.trains ++ [train]) := by
  unfold placeTrain
  cases hfb : findBest weights train ps with
  | some pair =>
    obtain ⟨i, s⟩ := pair
    obtain ⟨⟨pl, hget, -, -⟩, -, -⟩ := findBest_some hfb
    exact updatePlatform_flatten_perm train ps i (List.getElem?_eq_some.mp hget).1
  | none =>
    simp [List.flatMap_append]

lemma foldl_place_flatten_perm (weights : ScoringWeights) :
    ∀ (l : List AssignedTrain) (ps : List Platform),
      ((l.foldl (placeTrain weights) ps).flatMap Platform.trains).Perm
        (ps.flatMap Platform.trains ++ l)
  | [], ps => by simp
  | t :: l, ps => by
    have ih := foldl_place_flatten_perm weights l (placeTrain weights ps t)
    have step := (placeTrain_flatten_perm weights ps t).append_right l
    rw [List.foldl_cons]
    exact ih.trans (by simpa [List.append_assoc] using step)

lemma platformInv_push {train : AssignedTrain} {pl : Platform}
    (hinv : PlatformInv pl) (hf : pl.nextFreeAt ≤ train.effectiveArrival) :
    PlatformInv (pushTrain train pl) := by
  obtain ⟨hlast, hchain⟩ := hinv
  constructor
  · show (pl.trains ++ [train]).getLast?.map AssignedTrain.effectiveDeparture =
      some train.effectiveDeparture
    simp [List.getLast?_concat]
  · show (pl.trains ++ [train]).Chain' (fun a b => a.effectiveDeparture ≤ b.effectiveArrival)
    rw [List.chain'_append]
    refine ⟨hchain, List.chain'_singleton train, ?_⟩
    intro x hx y hy
    rw [List.head?_cons, Option.mem_some_iff] at hy
    subst hy
    cases hl : pl.trains.getLast? with
    | none =>
      rw [hl] at hx
      exact absurd hx (by simp)
    | some last =>
      rw [hl, Option.mem_some_iff] at hx
      subst hx
      rw [hl] at hlast
      have hld : last.effectiveDeparture = pl.nextFreeAt := by simpa using hlast
      rw [hld]
      exact hf

lemma stateInv_place (weights : ScoringWeights) (ps : List Platform)
    (train : AssignedTrain) (h : StateInv ps) :
    StateInv (placeTrain weights ps train) := by
  obtain ⟨hinv, hid⟩ := h
  unfold placeTrain
  cases hfb : findBest weights train ps with
  | some pair =>
    obtain ⟨i, s⟩ := pair
    obtain ⟨⟨pl, hget, hf, -⟩, -, -⟩ := findBest_some hfb
    constructor
    · intro pl' hmem
      rcases mem_updatePlatform hmem with h' | ⟨plx, hgetx, heq⟩
      · exact hinv pl' h'
      · rw [hgetx] at hget
        cases Option.some_inj.mp hget
        exact heq ▸ platformInv_push (hinv pl (List.getElem?_mem hgetx)) hf
    · rw [updatePlatform_map_id, updatePlatform_length]
      exact hid
  | none =>
    constructor
    · intro pl' hmem
      rcases List.mem_append.mp hmem with h' | h'
      · exact hinv pl' h'
      · rw [List.mem_singleton.mp h']
        exact ⟨by simp, List.chain'_singleton train⟩
    · rw [List.map_append, List.length_append, hid]
      simp [List.range'_concat, Nat.add_comm]

lemma stateInv_foldl (weights : ScoringWeights) :
    ∀ (l : List AssignedTrain) (ps : List Platform), StateInv ps →
      StateInv (l.foldl (placeTrain weights) ps)
  | [], ps, h => h
  | t :: l, ps, h =>
    stateInv_foldl weights l (placeTrain weights ps t) (stateInv_place weights ps t h)

lemma stateInv_nil : StateInv [] :=
  ⟨fun pl h => absurd h (List.not_mem_nil pl), rfl⟩

lemma exampleSorted :
    (withEffective exampleTrains).Pairwise (fun a b => effLE a b = true) := by
  with_unfolding_all decide

lemma exampleAssign_eq :
    assignPlatformsScoreBased exampleTrains DEFAULT_WEIGHTS =
      [examplePlatform1, examplePlatform2] := by
  rw [assignPlatformsScoreBased, sortedEffective, List.mergeSort_of_sorted exampleSorted]
  with_unfolding_all decide

lemma foldl_add_delay (ts : List AssignedTrain) (q : ℚ) :
    ts.foldl (fun sum t => sum + t.toTrain.delay) q =
      q + (ts.map (fun t => t.toTrain.delay)).sum := by
  induction ts generalizing q with
  | nil => simp
  | cons t ts ih => simp [ih, add_assoc]

/-- C1: for every input vehicle list and every weight configuration, the platform list
returned by `assignPlatformsScoreBased` partitions the input: the concatenation of the
platforms' vehicle sequences (projected back to the underlying trains) is a permutation
of the input list, the sum of the sequence lengths equals the input length, and the
empty input yields zero platforms. -/
theorem assign_partitions_input (trains : List Train) (weights : ScoringWeights) :
    ((assignPlatformsScoreBased trains weights).flatMap
        (fun pl => pl.trains.map AssignedTrain.toTrain)).Perm trains ∧
    ((assignPlatformsScoreBased trains weights).map (fun pl => pl.trains.length)).sum =
      trains.length ∧
    assignPlatformsScoreBased [] weights = [] := by
  have hperm :
      ((assignPlatformsScoreBased trains weights).flatMap Platform.trains).Perm
        (withEffective trains) := by
    have h1 := foldl_place_flatten_perm weights (sortedEffective trains) []
    have h2 : (sortedEffective trains).Perm (withEffective trains) :=
      List.mergeSort_perm _ _
    simp only [List.flatMap_nil, List.nil_append] at h1
    exact h1.trans h2
  have hmap : ((withEffective trains).map AssignedTrain.toTrain) = trains := by
    simp [withEffective, List.map_map, Function.comp_def]
  refine ⟨?_, ?_, ?_⟩
  · have := (hperm.map AssignedTrain.toTrain)
    rw [hmap] at this
    simpa [List.map_flatMap] using this
  · have hlen := hperm.length_eq
    rw [List.length_flatMap] at hlen
    simpa [Function.comp_def, List.length_map, withEffective] using hlen
  · simp [assignPlatformsScoreBased, sortedEffective, withEffective]

/-- C2: in every platform of the output of `assignPlatformsScoreBased`, any two
vehicles placed consecutively in that platform's sequence do not overlap: the later
vehicle's effective arrival is at least the earlier vehicle's effective departure. -/
theorem assign_no_overlap (trains : List Train) (weights : ScoringWeights) (pl : Platform)
    (h : pl ∈ assignPlatformsScoreBased trains weights) :
    pl.trains.Chain' (fun a b => a.effectiveDeparture ≤ b.effectiveArrival) :=
  ((stateInv_foldl weights (sortedEffective trains) [] stateInv_nil).1 pl h).2

theorem assign_no_overlap_witness :
    examplePlatform1.trains.Chain' (fun a b => a.effectiveDeparture ≤ b.effectiveArrival) :=
  assign_no_overlap exampleTrains DEFAULT_WEIGHTS examplePlatform1
    (by rw [exampleAssign_eq]; exact List.mem_cons_self _ _)

/-- C3: when `findBest` selects index `i` with score `s`, then platform `i` is feasible
with score `s`, `s` is minimal among all feasible platforms, every feasible platform
strictly before `i` scores strictly worse (first minimum wins under the strict `<`
scan), and the vehicle is then assigned to platform `i`. -/
theorem findBest_first_minimum (weights : ScoringWeights) (train : AssignedTrain)
    (platforms : List Platform) (i : Nat) (s : ℚ)
    (h : findBest weights train platforms = some (i, s)) :
    (∃ pl : Platform, platforms[i]? = some pl ∧ pl.nextFreeAt ≤ train.effectiveArrival ∧
      s = score weights pl train) ∧
    (∀ (j : Nat) (pl : Platform), platforms[j]? = some pl →
      pl.nextFreeAt ≤ train.effectiveArrival → s ≤ score weights pl train) ∧
    (∀ (j : Nat) (pl : Platform), j < i → platforms[j]? = some pl →
      pl.nextFreeAt ≤ train.effectiveArrival → s < score weights pl train) ∧
    placeTrain weights platforms train = updatePlatform train platforms i := by
  have hb := findBest_some h
  exact ⟨hb.1, hb.2.1, hb.2.2, by rw [placeTrain, h]⟩

theorem findBest_first_minimum_witness :
    findBest DEFAULT_WEIGHTS tieTrain [tiePlatformA, tiePlatformB] = some (0, 10) ∧
    ((∃ pl : Platform, [tiePlatformA, tiePlatformB][(0 : Nat)]? = some pl ∧
        pl.nextFreeAt ≤ tieTrain.effectiveArrival ∧
        (10 : ℚ) = score DEFAULT_WEIGHTS pl tieTrain) ∧
      (∀ (j : Nat) (pl : Platform), [tiePlatformA, tiePlatformB][j]? = some pl →
        pl.nextFreeAt ≤ tieTrain.effectiveArrival →
        (10 : ℚ) ≤ score DEFAULT_WEIGHTS pl tieTrain) ∧
      (∀ (j : Nat) (pl : Platform), j < 0 → [tiePlatformA, tiePlatformB][j]? = some pl →
        pl.nextFreeAt ≤ tieTrain.effectiveArrival →
        (10 : ℚ) < score DEFAULT_WEIGHTS pl tieTrain) ∧
      placeTrain DEFAULT_WEIGHTS [tiePlatformA, tiePlatformB] tieTrain =
        updatePlatform tieTrain [tiePlatformA, tiePlatformB] 0) :=
  ⟨by with_unfolding_all decide,
   findBest_first_minimum DEFAULT_WEIGHTS tieTrain [tiePlatformA, tiePlatformB] 0 10
     (by with_unfolding_all decide)⟩

/-- C4: on the spec's worked example (A: 0-20, B: 10-30, C: 25-40, all on time, default
weights) the engine returns exactly two platforms, platform 1 holding [A, C] and
platform 2 holding [B]. -/
theorem assign_worked_example :
    assignPlatformsScoreBased exampleTrains DEFAULT_WEIGHTS =
      [examplePlatform1, examplePlatform2] ∧
    (assignPlatformsScoreBased exampleTrains DEFAULT_WEIGHTS).length = 2 ∧
    examplePlatform1.id = 1 ∧ examplePlatform2.id = 2 ∧
    examplePlatform1.trains.map AssignedTrain.toTrain = [trainA, trainC] ∧
    examplePlatform2.trains.map AssignedTrain.toTrain = [trainB] :=
  ⟨exampleAssign_eq, by rw [exampleAssign_eq]; rfl, rfl, rfl, rfl, rfl⟩

/-- C5: the processing order is a stable sort keyed solely on `effectiveArrival`: any
pair in input order with equal keys stays in that order, the result is sorted by
`effectiveArrival`, and it is a permutation of the effective-time list. -/
theorem sort_stable_keyed_on_effectiveArrival (trains : List Train) (a b : AssignedTrain)
    (hab : [a, b].Sublist (withEffective trains))
    (heq : a.effectiveArrival = b.effectiveArrival) :
    [a, b].Sublist (sortedEffective trains) ∧
    (sortedEffective trains).Pairwise
      (fun x y => x.effectiveArrival ≤ y.effectiveArrival) ∧
    (sortedEffective trains).Perm (withEffective trains) := by
  have htrans : ∀ (x y z : AssignedTrain), effLE x y → effLE y z → effLE x z := by
    intro x y z hxy hyz
    simp only [effLE, decide_eq_true_eq] at hxy hyz ⊢
    exact le_trans hxy hyz
  have htotal : ∀ (x y : AssignedTrain), effLE x y || effLE y x := by
    intro x y
    simp only [effLE]
    rcases le_total x.effectiveArrival y.effectiveArrival with h | h <;> simp [h]
  refine ⟨?_, ?_, List.mergeSort_perm _ _⟩
  · exact List.pair_sublist_mergeSort htrans htotal
      (by simp [effLE, heq.le]) hab
  · have hs := List.sorted_mergeSort htrans htotal (withEffective trains)
    exact hs.imp (fun h => by simpa [effLE, decide_eq_true_eq] using h)

theorem sort_stable_keyed_on_effectiveArrival_witness :
    [assignedD, assignedE].Sublist (withEffective [trainD, trainE]) ∧
    assignedD.effectiveArrival = assignedE.effectiveArrival ∧
    ([assignedD, assignedE].Sublist (sortedEffective [trainD, trainE]) ∧
      (sortedEffective [trainD, trainE]).Pairwise
        (fun x y => x.effectiveArrival ≤ y.effectiveArrival) ∧
      (sortedEffective [trainD, trainE]).Perm (withEffective [trainD, trainE])) :=
  ⟨by with_unfolding_all decide, by with_unfolding_all decide,
   sort_stable_keyed_on_effectiveArrival [trainD, trainE] assignedD assignedE
     (by with_unfolding_all decide) (by with_unfolding_all decide)⟩

/-- C6: the effective interval is the uniform translation of the scheduled interval by
the delay; the dwell duration is preserved under any delay value (negative included). -/
theorem effective_interval_uniform_translation (trains : List Train) (a : AssignedTrain)
    (h : a ∈ withEffective trains) :
    a.effectiveArrival = a.toTrain.arrival + a.toTrain.delay ∧
    a.effectiveDeparture = a.toTrain.departure + a.toTrain.delay ∧
    a.effectiveDeparture - a.effectiveArrival = a.toTrain.departure - a.toTrain.arrival := by
  obtain ⟨t, -, rfl⟩ := List.mem_map.mp h
  exact ⟨rfl, rfl, by ring⟩

theorem effective_interval_uniform_translation_witness :
    assignedNeg ∈ withEffective [trainNeg] ∧
    (assignedNeg.effectiveArrival = assignedNeg.toTrain.arrival + assignedNeg.toTrain.delay ∧
      assignedNeg.effectiveDeparture =
        assignedNeg.toTrain.departure + assignedNeg.toTrain.delay ∧
      assignedNeg.effectiveDeparture - assignedNeg.effectiveArrival =
        assignedNeg.toTrain.departure - assignedNeg.toTrain.arrival) :=
  ⟨by with_unfolding_all decide,
   effective_interval_uniform_translation [trainNeg] assignedNeg
     (by with_unfolding_all decide)⟩

/-- C7: the Metrics Aggregator computes
`endMetric = (totalDelayMinutes + delayedCount) / totalTrains` for nonempty platforms
and `0` for empty ones; on a platform with total delay 10, one delayed train and two
trains the value is `5.5 = 11/2`. -/
theorem endMetric_formula :
    (∀ pl : Platform, (platformMetrics pl).endMetric =
      if 0 < pl.trains.length then
        (specTotalDelayMinutes pl + (specDelayedCount pl : ℚ)) / (pl.trains.length : ℚ)
      else 0) ∧
    specTotalDelayMinutes metricsPlatform = 10 ∧
    specDelayedCount metricsPlatform = 1 ∧
    metricsPlatform.trains.length = 2 ∧
    (platformMetrics metricsPlatform).endMetric = 11 / 2 := by
  have hgen : ∀ pl : Platform, (platformMetrics pl).endMetric =
      if 0 < pl.trains.length then
        (specTotalDelayMinutes pl + (specDelayedCount pl : ℚ)) / (pl.trains.length : ℚ)
      else 0 := by
    intro pl
    simp only [platformMetrics, specTotalDelayMinutes, specDelayedCount,
      foldl_add_delay, List.countP_eq_length_filter, zero_add, gt_iff_lt]
  exact ⟨hgen, by with_unfolding_all decide, by with_unfolding_all decide, rfl,
    by with_unfolding_all decide⟩

/-- C8: the two per-vehicle delay reports use different formulas over the same
`endMetric`: the reach-table comparison data carries `|endMetric - prevDelay|` while
the Scheduling Metrics table carries `max 0 (prevDelay - endMetric)`, and the two
formulas genuinely differ. -/
theorem delay_reports_two_formulas (platforms : List Platform) (pl : Platform)
    (t : AssignedTrain) (h1 : pl ∈ platforms) (h2 : t ∈ pl.trains) :
    ({ train := t.toTrain.id, fullName := t.toTrain.name, prevDelay := t.toTrain.delay,
       newDelay := |(platformMetrics pl).endMetric - t.toTrain.delay| } :
      DelayComparisonRow) ∈ delayComparisonData platforms ∧
    ({ train := t.toTrain.name, platformId := pl.id, prevDelay := t.toTrain.delay,
       endTime := (platformMetrics pl).endMetric,
       newDelay := max 0 (t.toTrain.delay - (platformMetrics pl).endMetric) } :
      SchedulingMetricsRow) ∈ schedulingMetricsData platforms ∧
    ¬ ∀ em prev : ℚ, |em - prev| = max 0 (prev - em) := by
  refine ⟨?_, ?_, ?_⟩
  · exact List.mem_flatMap.mpr ⟨pl, h1, List.mem_map.mpr ⟨t, h2, rfl⟩⟩
  · exact List.mem_flatMap.mpr ⟨pl, h1, List.mem_map.mpr ⟨t, h2, rfl⟩⟩
  · intro hall
    have h5 := hall 5 0
    norm_num at h5

theorem delay_reports_two_formulas_witness :
    delayedTrainX ∈ metricsPlatform.trains ∧
    (({ train := delayedTrainX.toTrain.id, fullName := delayedTrainX.toTrain.name,
        prevDelay := delayedTrainX.toTrain.delay,
        newDelay :=
          |(platformMetrics metricsPlatform).endMetric - delayedTrainX.toTrain.delay| } :
       DelayComparisonRow) ∈ delayComparisonData [metricsPlatform] ∧
     ({ train := delayedTrainX.toTrain.name, platformId := metricsPlatform.id,
        prevDelay := delayedTrainX.toTrain.delay,
        endTime := (platformMetrics metricsPlatform).endMetric,
        newDelay :=
          max 0 (delayedTrainX.toTrain.delay -
            (platformMetrics metricsPlatform).endMetric) } :
       SchedulingMetricsRow) ∈ schedulingMetricsData [metricsPlatform] ∧
     ¬ ∀ em prev : ℚ, |em - prev| = max 0 (prev - em)) :=
  ⟨by with_unfolding_all decide,
   delay_reports_two_formulas [metricsPlatform] metricsPlatform delayedTrainX
     (List.mem_cons_self _ _) (by with_unfolding_all decide)⟩

/-- C9: after each vehicle is placed (i.e. for every number `n` of processed vehicles
of the sorted order), every platform's `nextFreeAt` equals the effective departure of
the last vehicle in its sequence and the platform ids are `1, 2, ...` in list order;
processing all vehicles is exactly `assignPlatformsScoreBased`. -/
theorem nextFreeAt_and_ids_invariant (trains : List Train) (weights : ScoringWeights)
    (n : Nat) :
    (∀ pl ∈ ((sortedEffective trains).take n).foldl (placeTrain weights) [],
      pl.trains.getLast?.map AssignedTrain.effectiveDeparture = some pl.nextFreeAt) ∧
    (((sortedEffective trains).take n).foldl (placeTrain weights) []).map Platform.id =
      List.range' 1
        ((((sortedEffective trains).take n).foldl (placeTrain weights) []).length) ∧
    ((sortedEffective trains).take (sortedEffective trains).length).foldl
        (placeTrain weights) [] = assignPlatformsScoreBased trains weights := by
  have h := stateInv_foldl weights ((sortedEffective trains).take n) [] stateInv_nil
  refine ⟨fun pl hm => (h.1 pl hm).1, h.2, ?_⟩
  rw [List.take_length]
  rfl

end TrainScheduler
